import Mathlib

/-!
Verification of the Chinese learning desktop application (`src/main.py`).

The program is embedded shallowly: Python strings become `List Char`,
Python dictionaries become association lists with Python's insertion-order
update semantics, and each operation of the program becomes a pure Lean
function.  Randomness (`random.choice`, `random.sample`) is modelled by
passing the drawn values explicitly as arguments, constrained where needed
by a predicate describing the set of values the library call can return.
The network-backed generation paths (`requests.post` to the completion and
speech endpoints) are not modelled; the theorems below concern the local
code paths, which is what the examined claims are about.
-/

namespace ChineseApp

/-- Characters of a Python string, modelled as a list of characters. -/
abbrev Str := List Char

/-- `leadsWith pat s` is true when `pat` occurs at the very start of `s`.
This is the elementary check underlying both Tk's exact text search
(used by `highlight_vocab`) and Python's `str.replace`. -/
def leadsWith : Str → Str → Bool
  | [], _ => true
  | _ :: _, [] => false
  | c :: cs, d :: ds => c == d && leadsWith cs ds

theorem leadsWith_iff : ∀ (p s : Str), leadsWith p s = true ↔ ∃ r, s = p ++ r := by
  intro p
  induction p with
  | nil =>
    intro s
    simp [leadsWith]
  | cons c cs ih =>
    intro s
    cases s with
    | nil =>
      simp [leadsWith]
    | cons d ds =>
      simp only [leadsWith, Bool.and_eq_true, beq_iff_eq, List.cons_append, ih ds]
      constructor
      · rintro ⟨h1, r, h2⟩
        exact ⟨r, by rw [h1, h2]⟩
      · rintro ⟨r, h⟩
        injection h with h1 h2
        exact ⟨h1.symm, r, h2⟩

/-- `containsSeg pat s` holds when `pat` occurs contiguously inside `s`
(the notion of "contains as a substring" for Python strings). -/
def containsSeg (pat s : Str) : Prop := ∃ a b, s = a ++ pat ++ b

/-- Number of positions of `s` at which `pat` occurs (used to state
"appears exactly once" and "does not appear"). -/
def occCount (pat s : Str) : Nat :=
  ((List.range (s.length + 1)).filter (fun i => leadsWith pat (List.drop i s))).length

/-- Python `s.replace(pat, rep, 1)`: replace the first occurrence of `pat`
in `s` by `rep` (leaves `s` unchanged when `pat` does not occur). -/
def replaceFirst (pat rep : Str) : Str → Str
  | [] => if leadsWith pat [] then rep else []
  | c :: rest =>
    if leadsWith pat (c :: rest) then rep ++ List.drop pat.length (c :: rest)
    else c :: replaceFirst pat rep rest

/-- Whitespace stripped by Python's `str.strip()` (ASCII whitespace;
the source only ever strips CSV cell values). -/
def isPySpace (c : Char) : Bool :=
  c == ' ' || c == '\t' || c == '\n' || c == '\r' || c.toNat == 11 || c.toNat == 12

/-- Python `str.strip()`. -/
def pyStrip (s : Str) : Str :=
  ((s.dropWhile isPySpace).reverse.dropWhile isPySpace).reverse

/-- Python `str.lower()` as used on CSV header names. -/
def lowerStr (s : Str) : Str := s.map Char.toLower

/-- Python `' '.join(words)`. -/
def joinSpace : List Str → Str
  | [] => []
  | [w] => w
  | w :: ws => w ++ " ".data ++ joinSpace ws

/-- The fixed catalogue `GRAMMAR_FORMS` of `src/main.py`. -/
def grammarForms : List Str :=
  ["S+不仅 + V1 + Ō, 也/还/而且 + V2 + Ó".data,
   "即使。。。也".data,
   "V + 光".data,
   "A 占 B + 数量".data,
   "V + 成 + Result".data,
   "好不容易 + 才 + Result".data,
   "比起来 B + (更 / 比较) + Adjective / Phrase".data,
   "跟 B 比起来 + (更 / 比较) + Adjective / Phrase".data]

/-- The colour palette `self.colors` of `src/main.py`. -/
def appColors : List Str :=
  ["#2e7d32".data, "#1565c0".data, "#6a1b9a".data, "#ef6c00".data, "#ad1457".data]

/-- The dataclass `VocabularyList` of `src/main.py`.  `tones` is the
insertion-ordered `Dict[str, str]`, modelled as an association list. -/
structure VocabularyList where
  name : Str
  words : List Str
  tones : List (Str × Str)
  color : Str
deriving DecidableEq

/-- Dictionary read `row.get(key)` on a `csv.DictReader` row. -/
def lookupRow (row : List (Str × Str)) (key : Str) : Option Str :=
  (row.find? (fun e => e.1 == key)).map (fun e => e.2)

/-- Python dict assignment `d[k] = v`: updates the value in place when the
key is present, otherwise appends the pair at the end. -/
def dictInsert : List (Str × Str) → Str → Str → List (Str × Str)
  | [], k, v => [(k, v)]
  | e :: rest, k, v => if e.1 = k then (e.1, v) :: rest else e :: dictInsert rest k v

/-- `ChineseLearningApp._match_field`: the first candidate that equals the
lower-cased form of some header wins; the chosen header is the last one
with that lower-cased form (Python dict comprehension overwrite); when no
candidate matches, the FIRST header is returned (this fallback applies to
the tone candidates as well, which is the behaviour claim C4 is about). -/
def matchField (fieldnames : List Str) (candidates : List Str) : Str :=
  match candidates.find? (fun c => fieldnames.any (fun f => lowerStr f == c)) with
  | some c => ((fieldnames.reverse.find? (fun f => lowerStr f == c)).getD (fieldnames.headD []))
  | none => fieldnames.headD []

/-- One iteration of the row loop of `_read_vocab_file`: skip the row when
the stripped word cell is empty, otherwise append the word and, when the
tone field name is non-empty and the stripped tone cell is non-empty,
record the tone. -/
def stepRow (wordField toneField : Str) (acc : List Str × List (Str × Str))
    (row : List (Str × Str)) : List Str × List (Str × Str) :=
  let word := pyStrip ((lookupRow row wordField).getD [])
  if word = [] then acc
  else
    let words := acc.1 ++ [word]
    if toneField = [] then (words, acc.2)
    else
      let tone := pyStrip ((lookupRow row toneField).getD [])
      if tone = [] then (words, acc.2)
      else (words, dictInsert acc.2 word tone)

/-- The error cases of `_read_vocab_file`: `fieldnames is None`, the
`fieldnames[0]` IndexError on an empty header list, and "No words found". -/
inductive CsvError where
  | missingHeaders
  | headerIndex
  | noWords
deriving DecidableEq

/-- `ChineseLearningApp._read_vocab_file`.  `headers` is
`reader.fieldnames` (`none` for a file with no rows at all), `rows` the
`DictReader` rows, `name` the file stem and `index` the load index. -/
def readVocabFile (headers : Option (List Str)) (rows : List (List (Str × Str)))
    (name : Str) (index : Nat) : Except CsvError VocabularyList :=
  match headers with
  | none => .error .missingHeaders
  | some fieldnames =>
    if fieldnames = [] then .error .headerIndex
    else
      let wordField := matchField fieldnames ["word".data, "vocab".data, "character".data]
      let toneField := matchField fieldnames ["tone".data, "tones".data]
      let acc := rows.foldl (stepRow wordField toneField) ([], [])
      if acc.1 = [] then .error .noWords
      else .ok ⟨name, acc.1, acc.2, appColors.getD (index % appColors.length) []⟩

/-- A `tag_add(tag, start, end)` call issued by `highlight_vocab`, together
with the vocabulary word that produced it.  Offsets are character offsets
into the widget text; `word` is instrumentation recording which word of
which scan produced the range (the Tk call itself carries only the tag and
the two offsets). -/
structure Span where
  tag : Str
  word : Str
  start : Nat
  stop : Nat
deriving DecidableEq

/-- Tag name `f"vocab_{vocab.name}"`. -/
def tagOf (name : Str) : Str := "vocab_".data ++ name

/-- The inner `while True` search loop of `highlight_vocab` for one word:
starting from offset `o` into the suffix `s` of the text, repeatedly find
the next exact occurrence, record its range, and resume the scan at the
end of the match.  The loop consumes at least one character of the suffix
per step, so `fuel := length of the whole text` (supplied by `scanWord`)
never runs out before the suffix does. -/
def scanFuel (w : Str) : Nat → Str → Nat → List (Nat × Nat)
  | 0, _, _ => []
  | _ + 1, [], _ => []
  | fuel + 1, c :: rest, o =>
    if leadsWith w (c :: rest) then
      (o, o + w.length) :: scanFuel w fuel (List.drop (w.length - 1) rest) (o + w.length)
    else
      scanFuel w fuel rest (o + 1)

/-- All non-overlapping occurrences of `w` in `text`, left to right. -/
def scanWord (w : Str) (text : Str) : List (Nat × Nat) :=
  scanFuel w text.length text 0

/-- Insertion step of `sorted(vocab.words, key=len, reverse=True)`:
stable descending insertion by character length. -/
def insOrd (w : Str) : List Str → List Str
  | [] => [w]
  | x :: xs => if x.length > w.length then x :: insOrd w xs else w :: x :: xs

/-- `sorted(vocab.words, key=len, reverse=True)` (a stable descending
sort by length). -/
def sortByLenDesc (ws : List Str) : List Str := ws.foldr insOrd []

/-- The `tag_add` calls issued for one vocabulary list. -/
def vocabSpans (v : VocabularyList) (text : Str) : List Span :=
  (sortByLenDesc v.words).flatMap
    (fun w => (scanWord w text).map (fun p => ⟨tagOf v.name, w, p.1, p.2⟩))

/-- All `tag_add` calls issued by one run of `highlight_vocab`, in order. -/
def highlightSpans (lists : List VocabularyList) (text : Str) : List Span :=
  lists.flatMap (fun v => vocabSpans v text)

/-- `self.highlight_text.tag_delete(t)`: drop every recorded range whose
tag is `t`. -/
def tagDelete (t : Str) (st : List Span) : List Span :=
  st.filter (fun sp => !(sp.tag == t))

/-- Adding one range to the widget's tag state: Tk tag ranges form a set,
so adding an already-present range changes nothing. -/
def addSpan (st : List Span) (sp : Span) : List Span :=
  if sp ∈ st then st else st ++ [sp]

/-- Applying a batch of `tag_add` calls to the widget state. -/
def addSpans (st : List Span) (new : List Span) : List Span :=
  new.foldl addSpan st

/-- One full run of `highlight_vocab` as a transformer of the widget's
tag state: first `tag_delete("vocab")` (note the literal tag name used by
line 304 of `src/main.py`), then re-apply all computed spans. -/
def highlightVocabRun (lists : List VocabularyList) (text : Str) (st : List Span) : List Span :=
  addSpans (tagDelete "vocab".data st) (highlightSpans lists text)

/-- `ChineseLearningApp._fallback_sentence` applied to the words drawn by
its `random.sample` call: `f"{grammar}：{' '.join(words)}"`. -/
def fallbackSentence (grammar : Str) (sampled : List Str) : Str :=
  grammar ++ "：".data ++ joinSpace sampled

/-- `sampled` is a possible result of `random.sample(pool, min(3, len(pool)))`:
the values at `min 3 pool.length` pairwise-distinct positions of `pool`. -/
def IsSample (pool : List Str) (sampled : List Str) : Prop :=
  ∃ idxs : List Nat, idxs.Nodup ∧ (∀ i ∈ idxs, i < pool.length) ∧
    idxs.length = min 3 pool.length ∧ sampled = idxs.map (fun i => pool.getD i [])

/-- `self._all_words()`. -/
def allWords (lists : List VocabularyList) : List Str :=
  lists.flatMap (fun v => v.words)

/-- The "Missing Vocabulary" warning of `generate_sentences`. -/
inductive GenWarning where
  | missingVocabulary
deriving DecidableEq

/-- `ChineseLearningApp.generate_sentences` on the no-API-key path: each
iteration draws a grammar form and a word sample (modelled by `draws`) and
renders the local fallback sentence.  The loop runs `max(1, count)` times. -/
def generateSentences (lists : List VocabularyList) (count : Int)
    (draws : Nat → Str × List Str) : Except GenWarning (List Str) :=
  let pool := allWords lists
  if pool = [] then .error .missingVocabulary
  else .ok ((List.range (max 1 count).toNat).map
    (fun i => fallbackSentence (draws i).1 (draws i).2))

/-- The quiz fields of the application: the two globals set by
`_build_quiz_tab`/`new_quiz` plus the two labels the quiz writes to. -/
structure QuizState where
  currentQuizWord : Option Str
  currentQuizTone : Option Str
  quizSentence : Str
  quizFeedback : Str
deriving DecidableEq

/-- The state right after `_build_quiz_tab` (before any `new_quiz`). -/
def initialQuizState : QuizState :=
  ⟨none, none, "Load vocabulary lists with tones to begin.".data, []⟩

/-- `messagebox.showwarning("Missing Tones", ...)` in `new_quiz`. -/
inductive QuizWarning where
  | missingTones
deriving DecidableEq

/-- `vocab.tones.items()` flattened across all loaded lists. -/
def toneEntries (lists : List VocabularyList) : List (Str × Str) :=
  lists.flatMap (fun v => v.tones)

/-- `f"【{quiz_word}】"`. -/
def bracketWord (w : Str) : Str := "【".data ++ w ++ "】".data

/-- `ChineseLearningApp.new_quiz` on the no-API-key path:
`_generate_quiz_sentence` then reduces to
`_fallback_sentence(random.choice(GRAMMAR_FORMS), vocab_words)`, whose
random draws are passed here as `grammar` and `sampled`; `entryIdx` is the
index drawn by `random.choice(tone_entries)`.  The produced sentence is
the fallback sentence with the first occurrence of the target word (if
any) wrapped in brackets. -/
def newQuiz (lists : List VocabularyList) (entryIdx : Nat) (grammar : Str)
    (sampled : List Str) : Except QuizWarning QuizState :=
  let entries := toneEntries lists
  if entries = [] then .error .missingTones
  else
    let e := entries.getD entryIdx ([], [])
    let s0 := fallbackSentence grammar sampled
    let s1 := replaceFirst e.1 (bracketWord e.1) s0
    .ok ⟨some e.1, some e.2, s1, []⟩

/-- Feedback text `"Correct!"`. -/
def correctText : Str := "Correct!".data

/-- Feedback text `f"Incorrect. {word} has tone {tone}."`. -/
def wrongText (w t : Str) : Str :=
  "Incorrect. ".data ++ w ++ " has tone ".data ++ t ++ ".".data

/-- Python truthiness of the optional-string quiz globals:
`not self.current_quiz_word` is true for `None` and for `""`. -/
def pyFalsyOpt : Option Str → Bool
  | none => true
  | some s => s.isEmpty

/-- The observable outcome of one `check_answer` click: the "No Quiz"
message box, or the grading branch taken. -/
inductive CheckOutcome where
  | noActiveQuiz
  | correctAnswer
  | wrongAnswer (word tone : Str)
deriving DecidableEq

/-- `ChineseLearningApp.check_answer` with the tone chosen in the
dropdown; returns the outcome and the state after the call (the quiz
globals are never written by this method, only the feedback label is). -/
def checkAnswer (st : QuizState) (chosen : Str) : CheckOutcome × QuizState :=
  if pyFalsyOpt st.currentQuizWord || pyFalsyOpt st.currentQuizTone then
    (.noActiveQuiz, st)
  else
    let w := st.currentQuizWord.getD []
    let t := st.currentQuizTone.getD []
    if chosen = t then (.correctAnswer, { st with quizFeedback := correctText })
    else (.wrongAnswer w t, { st with quizFeedback := wrongText w t })

/-- Per-list invariant of every `VocabularyList` built by
`_read_vocab_file` (claim C10). -/
def ListInvariant (v : VocabularyList) : Prop :=
  (∀ w ∈ v.words, w ≠ []) ∧ ∀ e ∈ v.tones, e.1 ≠ [] ∧ e.2 ≠ [] ∧ e.1 ∈ v.words

/-! Concrete stores used by the counterexamples and witnesses. -/

/-- A store with four words of which only `你好` has a tone. -/
def demoList : VocabularyList :=
  ⟨"hsk".data, ["你好".data, "谢谢".data, "再见".data, "学习".data],
   [("你好".data, "3".data)], "#2e7d32".data⟩

/-- List A of the overlapping-vocabulary scenario: word `学习`. -/
def listA : VocabularyList := ⟨"A".data, ["学习".data], [], "#2e7d32".data⟩

/-- List B of the overlapping-vocabulary scenario: word `习`. -/
def listB : VocabularyList := ⟨"B".data, ["习".data], [], "#1565c0".data⟩

/-- The text `我在学习中文` of the overlapping-vocabulary scenario. -/
def overlapText : Str := "我在学习中文".data

/-- A highlight range left in the widget by an earlier run (tag
`vocab_old` for a list named `old`). -/
def staleSpan : Span := ⟨"vocab_old".data, "学".data, 0, 1⟩

/-- C1: on the local fallback path (no API key), a possible draw of
`random.sample` omits the target word entirely, so the sentence shown by
`new_quiz` contains the bracketed target zero times, not exactly once.
The first two conjuncts show the drawn grammar form and word sample are
values the library calls can actually return for this store; the last two
evaluate the produced sentence: neither `【你好】` nor even `你好` occurs
in it. -/
theorem c1_quiz_fallback_missing_target :
    ("即使。。。也".data ∈ grammarForms)
    ∧ IsSample (allWords [demoList]) ["谢谢".data, "再见".data, "学习".data]
    ∧ newQuiz [demoList] 0 ("即使。。。也".data) ["谢谢".data, "再见".data, "学习".data]
        = .ok ⟨some ("你好".data), some ("3".data), "即使。。。也：谢谢 再见 学习".data, []⟩
    ∧ occCount (bracketWord ("你好".data)) ("即使。。。也：谢谢 再见 学习".data) = 0
    ∧ occCount ("你好".data) ("即使。。。也：谢谢 再见 学习".data) = 0 := by
  refine ⟨by decide, ⟨[1, 2, 3], by decide, by decide, by decide, by decide⟩, rfl, rfl, rfl⟩

/-- C2 counterexample: with `学习` in list A and `习` in list B and the
text `我在学习中文`, the highlighting pass does record a span for the
shorter word `习` (tag `vocab_B`, range [3,4)), contrary to the claim
that no span is produced for `习` there. -/
theorem c2_counterexample :
    (⟨tagOf ("B".data), "习".data, 3, 4⟩ : Span) ∈ highlightSpans [listA, listB] overlapText := by
  decide

/-- C2 amended: on that store and text the pass produces exactly two
spans: the longer word `学习` from list A over [2,4) and, in addition, the
shorter word `习` from list B over [3,4) — spans of different lists
overlap; the longer match does not suppress the shorter one. -/
theorem c2_amended :
    highlightSpans [listA, listB] overlapText
      = [⟨tagOf ("A".data), "学习".data, 2, 4⟩, ⟨tagOf ("B".data), "习".data, 3, 4⟩] := by
  decide

/-- C4: a CSV whose headers `hanzi, meaning` contain no tone column.  The
word column correctly falls back to the first column, but the tone field
falls back to the first column as well (`_match_field` returns
`fieldnames[0]` for the tone candidates too), so the loaded list maps the
word to itself instead of having an empty tones mapping. -/
theorem c4_tone_fallback_bug :
    readVocabFile (some ["hanzi".data, "meaning".data])
        [[("hanzi".data, "你好".data), ("meaning".data, "hello".data)]] ("list1".data) 0
      = .ok ⟨"list1".data, ["你好".data], [("你好".data, "你好".data)], "#2e7d32".data⟩ := by
  rfl

/-- C5 counterexample: a run of `highlight_vocab` does not clear
previously applied highlighting.  With an empty store the run computes no
spans at all, yet a stale range tagged `vocab_old` survives the
`tag_delete("vocab")` call (the deleted tag name never matches the
applied tags `vocab_<list>`), so the widget state is unchanged instead of
cleared. -/
theorem c5_counterexample :
    highlightVocabRun [] ("中文".data) [staleSpan] = [staleSpan]
    ∧ highlightSpans ([] : List VocabularyList) ("中文".data) = [] := by
  exact ⟨rfl, rfl⟩

/-! Soundness of the search loop: every recorded range is an exact
occurrence of the scanned word, fully inside the text. -/

theorem takeLenAppend (a b : Str) : List.take a.length (a ++ b) = a := by
  induction a with
  | nil => rfl
  | cons c cs ih => simp [ih]

theorem scanFuel_sound (w : Str) (hw : w ≠ []) :
    ∀ (fuel : Nat) (s : Str) (o : Nat) (text : Str), s = List.drop o text →
      ∀ p ∈ scanFuel w fuel s o,
        p.2 = p.1 + w.length ∧ p.1 + w.length ≤ text.length ∧
        List.take w.length (List.drop p.1 text) = w := by
  intro fuel
  induction fuel with
  | zero =>
    intro s o text hs p hp
    simp [scanFuel] at hp
  | succ fuel ih =>
    intro s o text hs p hp
    cases s with
    | nil => simp [scanFuel] at hp
    | cons c rest =>
      have hrest : rest = List.drop (o + 1) text := by
        have h1 : List.drop (o + 1) text = List.drop 1 (List.drop o text) := by
          rw [List.drop_drop, Nat.add_comm]
        rw [h1, ← hs, List.drop_one, List.tail_cons]
      rw [scanFuel] at hp
      by_cases hlw : leadsWith w (c :: rest) = true
      · rw [if_pos hlw] at hp
        obtain ⟨r, hr⟩ := (leadsWith_iff w (c :: rest)).mp hlw
        have hdrop : List.drop o text = w ++ r := by rw [← hs, hr]
        have holt : o < text.length := by
          by_contra hle
          push_neg at hle
          rw [List.drop_eq_nil_of_le hle] at hdrop
          exact hw (List.append_eq_nil.mp hdrop.symm).1
        have hlen : w.length + r.length = text.length - o := by
          have := congrArg List.length hdrop
          simp only [List.length_drop, List.length_append] at this
          omega
        have hwpos : 0 < w.length := List.length_pos.mpr hw
        rcases List.mem_cons.mp hp with rfl | hp'
        · refine ⟨rfl, by omega, ?_⟩
          rw [hdrop, takeLenAppend]
        · refine ih _ (o + w.length) text ?_ p hp'
          rw [hrest, List.drop_drop]
          have : o + 1 + (w.length - 1) = o + w.length := by omega
          rw [this]
      · rw [if_neg hlw] at hp
        exact ih rest (o + 1) text hrest p hp

theorem insOrd_mem (a w : Str) : ∀ l, a ∈ insOrd w l ↔ a = w ∨ a ∈ l := by
  intro l
  induction l with
  | nil => simp [insOrd]
  | cons x xs ih =>
    rw [insOrd]
    by_cases h : x.length > w.length
    · rw [if_pos h]
      simp only [List.mem_cons, ih]
      exact or_left_comm
    · rw [if_neg h]
      simp [List.mem_cons]

theorem sortByLenDesc_mem (a : Str) : ∀ ws, a ∈ sortByLenDesc ws ↔ a ∈ ws := by
  intro ws
  induction ws with
  | nil => simp [sortByLenDesc]
  | cons w ws ih =>
    show a ∈ insOrd w (sortByLenDesc ws) ↔ _
    rw [insOrd_mem, ih]
    simp

/-- C3: every span recorded by the highlighting pass (for a store whose
words are non-empty, the only stores `_read_vocab_file` can build) lies
within the text bounds with a non-empty range, and the text slice it
covers is exactly the vocabulary word that produced it. -/
theorem c3_span_soundness (lists : List VocabularyList) (text : Str)
    (hw : ∀ v ∈ lists, ∀ w ∈ v.words, w ≠ [])
    (sp : Span) (hsp : sp ∈ highlightSpans lists text) :
    sp.start < sp.stop ∧ sp.stop ≤ text.length ∧
      List.take (sp.stop - sp.start) (List.drop sp.start text) = sp.word := by
  rw [highlightSpans, List.mem_flatMap] at hsp
  obtain ⟨v, hv, hspv⟩ := hsp
  rw [vocabSpans, List.mem_flatMap] at hspv
  obtain ⟨w, hwmem, hspw⟩ := hspv
  rw [List.mem_map] at hspw
  obtain ⟨p, hp, rfl⟩ := hspw
  have hwne : w ≠ [] := hw v hv w ((sortByLenDesc_mem w v.words).mp hwmem)
  rw [scanWord] at hp
  obtain ⟨h1, h2, h3⟩ := scanFuel_sound w hwne text.length text 0 text (by simp) p hp
  have hwpos : 0 < w.length := List.length_pos.mpr hwne
  refine ⟨by simp only; omega, by simp only; omega, ?_⟩
  simp only
  have : p.2 - p.1 = w.length := by omega
  rw [this, h3]

/-- C3 witness: the span for `学习` on the overlapping-vocabulary store. -/
theorem c3_witness :
    (2 : Nat) < 4 ∧ 4 ≤ overlapText.length ∧
      List.take (4 - 2) (List.drop 2 overlapText) = "学习".data :=
  c3_span_soundness [listA, listB] overlapText (by decide)
    ⟨tagOf ("A".data), "学习".data, 2, 4⟩ (by decide)

/-! Idempotence of the `highlight_vocab` state transformer. -/

theorem addSpan_mem_of_mem (st : List Span) (sp x : Span) (h : x ∈ st) : x ∈ addSpan st sp := by
  rw [addSpan]
  split
  · exact h
  · exact List.mem_append_left _ h

theorem mem_addSpan_self (st : List Span) (sp : Span) : sp ∈ addSpan st sp := by
  rw [addSpan]
  split
  · assumption
  · exact List.mem_append_right _ (List.mem_singleton.mpr rfl)

theorem addSpans_mem_of_mem : ∀ (new st : List Span) (x : Span), x ∈ st → x ∈ addSpans st new := by
  intro new
  induction new with
  | nil => intro st x h; exact h
  | cons b bs ih =>
    intro st x h
    exact ih (addSpan st b) x (addSpan_mem_of_mem st b x h)

theorem mem_addSpans_of_mem_new : ∀ (new st : List Span) (x : Span), x ∈ new → x ∈ addSpans st new := by
  intro new
  induction new with
  | nil => intro st x h; cases h
  | cons b bs ih =>
    intro st x h
    rcases List.mem_cons.mp h with rfl | h'
    · exact addSpans_mem_of_mem bs (addSpan st x) x (mem_addSpan_self st x)
    · exact ih (addSpan st b) x h'

theorem addSpans_eq_of_sub : ∀ (new st : List Span), (∀ x ∈ new, x ∈ st) → addSpans st new = st := by
  intro new
  induction new with
  | nil => intro st h; rfl
  | cons b bs ih =>
    intro st h
    have hb : addSpan st b = st := by rw [addSpan, if_pos (h b (List.mem_cons_self b bs))]
    show addSpans (addSpan st b) bs = st
    rw [hb]
    exact ih st (fun x hx => h x (List.mem_cons_of_mem b hx))

theorem filterTwice (q : Span → Bool) : ∀ l : List Span, List.filter q (List.filter q l) = List.filter q l := by
  intro l
  induction l with
  | nil => rfl
  | cons x xs ih =>
    rw [List.filter_cons]
    by_cases h : q x = true
    · rw [if_pos h, List.filter_cons, if_pos h, ih]
    · rw [if_neg h, ih]

theorem tagDelete_tagDelete (t : Str) (st : List Span) :
    tagDelete t (tagDelete t st) = tagDelete t st :=
  filterTwice (fun sp => !(sp.tag == t)) st

theorem mem_tagDelete (t : Str) (st : List Span) (sp : Span) (h1 : sp ∈ st)
    (h2 : ¬ sp.tag = t) : sp ∈ tagDelete t st := by
  rw [tagDelete]
  refine List.mem_filter.mpr ⟨h1, ?_⟩
  simp [h2]

theorem tagDelete_addSpan (t : Str) (st : List Span) (sp : Span) (h : ¬ sp.tag = t) :
    tagDelete t (addSpan st sp) = addSpan (tagDelete t st) sp := by
  have hq : (!(sp.tag == t)) = true := by
    simp [h]
  rw [addSpan]
  by_cases hmem : sp ∈ st
  · rw [if_pos hmem]
    have hmem2 : sp ∈ tagDelete t st := mem_tagDelete t st sp hmem h
    rw [addSpan, if_pos hmem2]
  · rw [if_neg hmem]
    show List.filter (fun x => !(x.tag == t)) (st ++ [sp]) = _
    rw [List.filter_append]
    have h1 : List.filter (fun x => !(x.tag == t)) [sp] = [sp] := by
      rw [List.filter_cons, if_pos hq]
      rfl
    have h2 : sp ∉ tagDelete t st := fun hc => hmem (List.mem_filter.mp hc).1
    rw [h1, addSpan, if_neg h2]
    rfl

theorem tagDelete_addSpans (t : Str) : ∀ (new st : List Span),
    (∀ sp ∈ new, ¬ sp.tag = t) →
    tagDelete t (addSpans st new) = addSpans (tagDelete t st) new := by
  intro new
  induction new with
  | nil => intro st h; rfl
  | cons b bs ih =>
    intro st h
    show tagDelete t (addSpans (addSpan st b) bs) = addSpans (addSpan (tagDelete t st) b) bs
    rw [ih (addSpan st b) (fun sp hsp => h sp (List.mem_cons_of_mem b hsp)),
      tagDelete_addSpan t st b (h b (List.mem_cons_self b bs))]

theorem tagOf_ne_vocab (name : Str) : tagOf name ≠ "vocab".data := by
  intro h
  have hlen := congrArg List.length h
  rw [tagOf, List.length_append] at hlen
  have h6 : ("vocab_".data).length = 6 := rfl
  have h5 : ("vocab".data).length = 5 := rfl
  omega

theorem highlightSpans_tag (lists : List VocabularyList) (text : Str) :
    ∀ sp ∈ highlightSpans lists text, ¬ sp.tag = "vocab".data := by
  intro sp hsp
  rw [highlightSpans, List.mem_flatMap] at hsp
  obtain ⟨v, _, hspv⟩ := hsp
  rw [vocabSpans, List.mem_flatMap] at hspv
  obtain ⟨w, _, hspw⟩ := hspv
  rw [List.mem_map] at hspw
  obtain ⟨p, _, rfl⟩ := hspw
  exact tagOf_ne_vocab v.name

/-- C5 amended: one run of `highlight_vocab` is idempotent on the
widget's tag state — not because prior highlighting is cleared (it is
not; see the counterexample), but because a second run deletes a tag name
that never occurs and re-adds exactly the ranges that are already
present. -/
theorem c5_amended (lists : List VocabularyList) (text : Str) (st : List Span) :
    highlightVocabRun lists text (highlightVocabRun lists text st)
      = highlightVocabRun lists text st := by
  simp only [highlightVocabRun]
  rw [tagDelete_addSpans "vocab".data (highlightSpans lists text)
    (tagDelete "vocab".data st) (highlightSpans_tag lists text)]
  rw [tagDelete_tagDelete]
  exact addSpans_eq_of_sub (highlightSpans lists text)
    (addSpans (tagDelete "vocab".data st) (highlightSpans lists text))
    (fun x hx => mem_addSpans_of_mem_new (highlightSpans lists text)
      (tagDelete "vocab".data st) x hx)

/-! Sentence generation. -/

theorem containsSegPre (w pre s : Str) (h : containsSeg w s) : containsSeg w (pre ++ s) := by
  obtain ⟨a, b, rfl⟩ := h
  exact ⟨pre ++ a, b, by simp [List.append_assoc]⟩

theorem joinSpace_cons2 (x y : Str) (ys : List Str) :
    joinSpace (x :: y :: ys) = x ++ " ".data ++ joinSpace (y :: ys) := rfl

theorem joinSpace_containsSeg : ∀ (ws : List Str) (w : Str), w ∈ ws → containsSeg w (joinSpace ws) := by
  intro ws
  induction ws with
  | nil => intro w h; cases h
  | cons x xs ih =>
    intro w h
    cases xs with
    | nil =>
      rcases List.mem_singleton.mp h with rfl
      exact ⟨[], [], by simp [joinSpace]⟩
    | cons y ys =>
      rcases List.mem_cons.mp h with rfl | h'
      · exact ⟨[], " ".data ++ joinSpace (y :: ys), by simp [joinSpace_cons2, List.append_assoc]⟩
      · obtain ⟨a, b, hab⟩ := ih w h'
        refine ⟨x ++ " ".data ++ a, b, ?_⟩
        rw [joinSpace_cons2, hab]
        simp [List.append_assoc]

/-- C6: the local fallback sentence is the stated deterministic rendering
of the drawn grammar pattern and word sample (`random.sample` and
`random.choice` are modelled by passing the drawn values explicitly, so
the output is a function of them alone), the sample has `min 3 |pool|`
distinct draws, and every sampled word occurs in the output as a
substring. -/
theorem c6_fallback_sample (grammar : Str) (pool sampled : List Str)
    (h : IsSample pool sampled) :
    fallbackSentence grammar sampled = grammar ++ "：".data ++ joinSpace sampled
    ∧ sampled.length = min 3 pool.length
    ∧ ∀ w ∈ sampled, containsSeg w (fallbackSentence grammar sampled) := by
  obtain ⟨idxs, _, _, hlen, hmap⟩ := h
  refine ⟨rfl, ?_, ?_⟩
  · rw [hmap, List.length_map, hlen]
  · intro w hw
    rw [fallbackSentence, List.append_assoc]
    exact containsSegPre w grammar ("：".data ++ joinSpace sampled)
      (containsSegPre w ("：".data) (joinSpace sampled) (joinSpace_containsSeg sampled w hw))

/-- C6 witness: a concrete three-word sample from a four-word pool. -/
theorem c6_witness :
    containsSeg ("你".data)
      (fallbackSentence ("V + 光".data) ["你".data, "我".data, "好".data]) :=
  (c6_fallback_sample ("V + 光".data)
      ["我".data, "你".data, "好".data, "了".data]
      ["你".data, "我".data, "好".data]
      ⟨[1, 0, 2], by decide, by decide, by decide, by decide⟩).2.2
    ("你".data) (by decide)

/-- C7: `generate_sentences` warns "Missing Vocabulary" and produces
nothing when no vocabulary word is loaded; otherwise it produces
`max(1, count)` sentences, i.e. the requested count clamped to at least
one. -/
theorem c7_generate_count (lists : List VocabularyList) (count : Int)
    (draws : Nat → Str × List Str) :
    (allWords lists = [] → generateSentences lists count draws = .error .missingVocabulary)
    ∧ (allWords lists ≠ [] →
        ∃ ss, generateSentences lists count draws = .ok ss
          ∧ ss.length = (max 1 count).toNat ∧ 1 ≤ ss.length) := by
  constructor
  · intro h
    rw [generateSentences, if_pos h]
  · intro h
    refine ⟨(List.range (max 1 count).toNat).map
      (fun i => fallbackSentence (draws i).1 (draws i).2), ?_, ?_, ?_⟩
    · rw [generateSentences, if_neg h]
    · rw [List.length_map, List.length_range]
    · rw [List.length_map, List.length_range]
      have h1 : (1 : Int) ≤ max 1 count := le_max_left 1 count
      omega

/-- C7 witness: an empty store errors; a store with words and a
non-positive requested count still yields one sentence. -/
theorem c7_witness :
    generateSentences [] 5 (fun _ => ([], [])) = .error .missingVocabulary
    ∧ ∃ ss, generateSentences [demoList] (-2) (fun _ => ([], [])) = .ok ss
        ∧ ss.length = (max 1 (-2 : Int)).toNat ∧ 1 ≤ ss.length :=
  ⟨(c7_generate_count [] 5 (fun _ => ([], []))).1 rfl,
   (c7_generate_count [demoList] (-2) (fun _ => ([], []))).2 (by decide)⟩

/-! The quiz. -/

/-- C8: when no quiz question is live — the target-word or tone global is
unset (`None`, as right after `_build_quiz_tab`) or empty — `check_answer`
only shows the "No Quiz" box and performs no grading: the state is
returned unchanged. -/
theorem c8_no_active_quiz (st : QuizState) (chosen : Str)
    (h : st.currentQuizWord = none ∨ st.currentQuizWord = some []
       ∨ st.currentQuizTone = none ∨ st.currentQuizTone = some []) :
    checkAnswer st chosen = (.noActiveQuiz, st) := by
  have hcond : (pyFalsyOpt st.currentQuizWord || pyFalsyOpt st.currentQuizTone) = true := by
    rcases h with h | h | h | h <;> rw [h] <;> simp [pyFalsyOpt]
  rw [checkAnswer, if_pos hcond]

/-- C8 witness: the initial state, before any `new_quiz` call. -/
theorem c8_witness :
    checkAnswer initialQuizState ("3".data) = (.noActiveQuiz, initialQuizState) :=
  c8_no_active_quiz initialQuizState ("3".data) (Or.inl rfl)

/-- C9: with a live question `(w, t)`, submitting `t` reports Correct,
the target word and correct tone are left unchanged, and a second
submission on the resulting state re-grades the very same question:
submitting `other ≠ t` then reports Incorrect and reveals `w` and `t` in
the feedback text. -/
theorem c9_regrade (st : QuizState) (w t other : Str)
    (hw : st.currentQuizWord = some w) (hw0 : w ≠ [])
    (ht : st.currentQuizTone = some t) (ht0 : t ≠ [])
    (hne : other ≠ t) :
    checkAnswer st t = (.correctAnswer, { st with quizFeedback := correctText })
    ∧ (checkAnswer st t).2.currentQuizWord = some w
    ∧ (checkAnswer st t).2.currentQuizTone = some t
    ∧ checkAnswer (checkAnswer st t).2 other
        = (.wrongAnswer w t, { st with quizFeedback := wrongText w t }) := by
  have hwE : pyFalsyOpt st.currentQuizWord = false := by
    rw [hw]
    cases w with
    | nil => exact absurd rfl hw0
    | cons a as => rfl
  have htE : pyFalsyOpt st.currentQuizTone = false := by
    rw [ht]
    cases t with
    | nil => exact absurd rfl ht0
    | cons a as => rfl
  have h1 : checkAnswer st t = (.correctAnswer, { st with quizFeedback := correctText }) := by
    rw [checkAnswer, hwE, htE]
    simp [ht]
  refine ⟨h1, by rw [h1]; exact hw, by rw [h1]; exact ht, ?_⟩
  rw [h1]
  show checkAnswer { st with quizFeedback := correctText } other = _
  rw [checkAnswer]
  show (if (pyFalsyOpt st.currentQuizWord || pyFalsyOpt st.currentQuizTone) = true then _ else _) = _
  rw [hwE, htE]
  simp [hw, ht, hne]

/-- C9 witness: a live question `(你好, 3)` graded with `3` and then `2`. -/
theorem c9_witness :
    checkAnswer ⟨some ("你好".data), some ("3".data), "s".data, []⟩ ("3".data)
      = (.correctAnswer, ⟨some ("你好".data), some ("3".data), "s".data, correctText⟩)
    ∧ (checkAnswer ⟨some ("你好".data), some ("3".data), "s".data, []⟩ ("3".data)).2.currentQuizWord
        = some ("你好".data)
    ∧ (checkAnswer ⟨some ("你好".data), some ("3".data), "s".data, []⟩ ("3".data)).2.currentQuizTone
        = some ("3".data)
    ∧ checkAnswer (checkAnswer ⟨some ("你好".data), some ("3".data), "s".data, []⟩ ("3".data)).2 ("2".data)
        = (.wrongAnswer ("你好".data) ("3".data),
           ⟨some ("你好".data), some ("3".data), "s".data, wrongText ("你好".data) ("3".data)⟩) :=
  c9_regrade ⟨some ("你好".data), some ("3".data), "s".data, []⟩
    ("你好".data) ("3".data) ("2".data) rfl (by decide) rfl (by decide) (by decide)

/-! Invariants of loaded vocabulary lists. -/

/-- Invariant of the `(words, tones)` accumulator of the row loop. -/
def AccInv (acc : List Str × List (Str × Str)) : Prop :=
  (∀ w ∈ acc.1, w ≠ []) ∧ ∀ e ∈ acc.2, e.1 ≠ [] ∧ e.2 ≠ [] ∧ e.1 ∈ acc.1

theorem dictInsert_mem : ∀ (l : List (Str × Str)) (k v : Str) (e : Str × Str),
    e ∈ dictInsert l k v → e ∈ l ∨ (e.1 = k ∧ e.2 = v) := by
  intro l k v
  induction l with
  | nil =>
    intro e he
    rcases List.mem_singleton.mp he with rfl
    exact Or.inr ⟨rfl, rfl⟩
  | cons x xs ih =>
    intro e he
    rw [dictInsert] at he
    by_cases h : x.1 = k
    · rw [if_pos h] at he
      rcases List.mem_cons.mp he with rfl | h'
      · exact Or.inr ⟨h, rfl⟩
      · exact Or.inl (List.mem_cons_of_mem x h')
    · rw [if_neg h] at he
      rcases List.mem_cons.mp he with rfl | h'
      · exact Or.inl (List.mem_cons_self e xs)
      · rcases ih e h' with h'' | h''
        · exact Or.inl (List.mem_cons_of_mem x h'')
        · exact Or.inr h''

theorem stepRow_inv (wf tf : Str) (acc : List Str × List (Str × Str))
    (row : List (Str × Str)) (h : AccInv acc) : AccInv (stepRow wf tf acc row) := by
  rw [stepRow]
  simp only
  by_cases hword : pyStrip ((lookupRow row wf).getD []) = []
  · rw [if_pos hword]
    exact h
  · rw [if_neg hword]
    have hws : ∀ w ∈ acc.1 ++ [pyStrip ((lookupRow row wf).getD [])], w ≠ [] := by
      intro w hwm
      rcases List.mem_append.mp hwm with h1 | h1
      · exact h.1 w h1
      · rcases List.mem_singleton.mp h1 with rfl
        exact hword
    have hkeep : ∀ e ∈ acc.2, e.1 ≠ [] ∧ e.2 ≠ [] ∧
        e.1 ∈ acc.1 ++ [pyStrip ((lookupRow row wf).getD [])] := by
      intro e he
      exact ⟨(h.2 e he).1, (h.2 e he).2.1, List.mem_append_left _ (h.2 e he).2.2⟩
    by_cases htf : tf = []
    · rw [if_pos htf]
      exact ⟨hws, hkeep⟩
    · rw [if_neg htf]
      by_cases htone : pyStrip ((lookupRow row tf).getD []) = []
      · rw [if_pos htone]
        exact ⟨hws, hkeep⟩
      · rw [if_neg htone]
        refine ⟨hws, ?_⟩
        intro e he
        rcases dictInsert_mem acc.2 _ _ e he with h1 | h1
        · exact hkeep e h1
        · refine ⟨?_, ?_, ?_⟩
          · rw [h1.1]
            exact hword
          · rw [h1.2]
            exact htone
          · rw [h1.1]
            exact List.mem_append_right _ (List.mem_singleton.mpr rfl)

theorem rowsFoldl_inv (wf tf : Str) : ∀ (rows : List (List (Str × Str)))
    (acc : List Str × List (Str × Str)), AccInv acc →
    AccInv (rows.foldl (stepRow wf tf) acc) := by
  intro rows
  induction rows with
  | nil => intro acc h; exact h
  | cons r rs ih =>
    intro acc h
    exact ih (stepRow wf tf acc r) (stepRow_inv wf tf acc r h)

/-- C10: every `VocabularyList` produced by `_read_vocab_file` has only
non-empty words (rows with an empty or whitespace-only word cell are
skipped), and each tones entry has a non-empty key that is one of the
list's words and a non-empty value.  Consequently, when `new_quiz`
succeeds on such lists (the drawn index being in range, as
`random.choice` guarantees), the stored target word and correct tone are
non-empty. -/
theorem c10_loaded_invariants :
    (∀ (headers : Option (List Str)) (rows : List (List (Str × Str))) (name : Str)
        (index : Nat) (v : VocabularyList),
        readVocabFile headers rows name index = .ok v → ListInvariant v)
    ∧ (∀ (lists : List VocabularyList) (entryIdx : Nat) (grammar : Str)
        (sampled : List Str) (st : QuizState),
        (∀ v ∈ lists, ListInvariant v) →
        entryIdx < (toneEntries lists).length →
        newQuiz lists entryIdx grammar sampled = .ok st →
        ∃ w t, st.currentQuizWord = some w ∧ w ≠ [] ∧
          st.currentQuizTone = some t ∧ t ≠ []) := by
  constructor
  · intro headers rows name index v hok
    rw [readVocabFile.eq_def] at hok
    cases headers with
    | none => cases hok
    | some fieldnames =>
      simp only at hok
      by_cases hf : fieldnames = []
      · rw [if_pos hf] at hok
        cases hok
      · rw [if_neg hf] at hok
        by_cases hwsnil : (rows.foldl
            (stepRow (matchField fieldnames ["word".data, "vocab".data, "character".data])
              (matchField fieldnames ["tone".data, "tones".data])) ([], [])).1 = []
        · rw [if_pos hwsnil] at hok
          cases hok
        · rw [if_neg hwsnil] at hok
          have hacc := rowsFoldl_inv
            (matchField fieldnames ["word".data, "vocab".data, "character".data])
            (matchField fieldnames ["tone".data, "tones".data]) rows ([], [])
            ⟨fun w hw => absurd hw (List.not_mem_nil w), fun e he => absurd he (List.not_mem_nil e)⟩
          cases hok
          exact ⟨hacc.1, hacc.2⟩
  · intro lists entryIdx grammar sampled st hinv hidx hok
    rw [newQuiz] at hok
    by_cases hent : toneEntries lists = []
    · rw [if_pos hent] at hok
      cases hok
    · rw [if_neg hent] at hok
      simp only at hok
      cases hok
      have hmem : (toneEntries lists).getD entryIdx ([], []) ∈ toneEntries lists := by
        rw [List.getD_eq_getElem (toneEntries lists) ([], []) hidx]
        exact List.getElem_mem hidx
      rw [toneEntries, List.mem_flatMap] at hmem
      obtain ⟨v, hv, hev⟩ := hmem
      obtain ⟨h1, h2, _⟩ := (hinv v hv).2 _ hev
      exact ⟨_, _, rfl, h1, rfl, h2⟩

/-- C10 witness: the list of the C4 evaluation satisfies the invariant,
and the quiz drawn in the C1 evaluation stores a non-empty word and
tone. -/
theorem c10_witness :
    ListInvariant ⟨"list1".data, ["你好".data], [("你好".data, "你好".data)], "#2e7d32".data⟩
    ∧ ∃ w t, (⟨some ("你好".data), some ("3".data), "即使。。。也：谢谢 再见 学习".data, []⟩ : QuizState).currentQuizWord = some w ∧ w ≠ [] ∧
        (⟨some ("你好".data), some ("3".data), "即使。。。也：谢谢 再见 学习".data, []⟩ : QuizState).currentQuizTone = some t ∧ t ≠ [] :=
  ⟨c10_loaded_invariants.1 (some ["hanzi".data, "meaning".data])
      [[("hanzi".data, "你好".data), ("meaning".data, "hello".data)]] ("list1".data) 0
      ⟨"list1".data, ["你好".data], [("你好".data, "你好".data)], "#2e7d32".data⟩ rfl,
   c10_loaded_invariants.2 [demoList] 0 ("即使。。。也".data)
      ["谢谢".data, "再见".data, "学习".data]
      ⟨some ("你好".data), some ("3".data), "即使。。。也：谢谢 再见 学习".data, []⟩
      (fun v hv => by
        rcases List.mem_singleton.mp hv with rfl
        exact ⟨by decide, by decide⟩)
      (by decide) rfl⟩

end ChineseApp
